import Mathlib

/-!
Verification of the glee signature-search core (src/main.go) against its
specification.  The Go source is shallowly embedded below: each Lean
definition transliterates the corresponding Go function.  Stateful loops
become recursion with explicit indices (bounded loops carry an explicit
`fuel` counter that is initialized above the loop's iteration bound, so
every definition is structurally recursive and kernel-computable); Go `int`
values that are always non-negative become `Nat`; code that can call
`panic` (via `regexp.MustCompile`) returns `Option`.
-/

section StringUtil

/-!
Kernel-computable models of the Go `strings` functions the source uses.
-/

/-- Go `strings.Join(elems, sep)`. -/
def goJoin (sep : String) : List String → String
  | [] => ""
  | [x] => x
  | x :: xs => x ++ sep ++ goJoin sep xs

/-- Go `strings.ReplaceAll(s, string(c), r)` for a single-character
pattern, which is the only form the source uses: every occurrence of the
character `c` is replaced by the string `r`. -/
def replaceAll (s : String) (c : Char) (r : String) : String :=
  String.mk (s.toList.foldr (fun ch acc => if ch = c then r.toList ++ acc else ch :: acc) [])

/-- Worker for `splitOnStr`: scan the remaining characters, cutting at each
leftmost non-overlapping occurrence of `sep`.  `fuel` bounds the recursion
and is initialized at the length of the scanned list, which suffices
because every step consumes at least one character. -/
def splitOnGo (sep : List Char) : Nat → List Char → List Char → List (List Char)
  | _, [], acc => [acc.reverse]
  | 0, s, acc => [acc.reverse ++ s]
  | fuel + 1, c :: rest, acc =>
      if sep.isPrefixOf (c :: rest) then
        acc.reverse :: splitOnGo sep fuel (List.drop (sep.length - 1) rest) []
      else splitOnGo sep fuel rest (c :: acc)

/-- Go `strings.Split(s, sep)` for a nonempty separator: split around each
leftmost non-overlapping instance of `sep`. -/
def splitOnStr (sep s : String) : List String :=
  (splitOnGo sep.toList s.toList.length s.toList []).map String.mk

/-- Go `strings.TrimSpace(s)`: remove leading and trailing whitespace
(the inputs relevant here are ASCII, where Go and Lean agree on what is
whitespace). -/
def trimStr (s : String) : String :=
  String.mk (((s.toList.dropWhile Char.isWhitespace).reverse.dropWhile Char.isWhitespace).reverse)

end StringUtil

/-- Function record extracted from source code (Go struct `Func`,
src/main.go lines 207-213). -/
structure Func where
  Path : String
  Loc : List Nat
  Name : String
  Args : List String
  Rets : List String
deriving DecidableEq, Inhabited

/-- A record paired with its edit distance (Go struct `FuncWithDistance`,
src/main.go lines 215-218). -/
structure FuncWithDistance where
  Func : Func
  Distance : Nat
deriving DecidableEq, Inhabited

/-- Canonical signature string (Go method `Func.Signature`, src/main.go
lines 232-234): `fmt.Sprintf("( %s ) -> ( %s )", strings.Join(f.Args, ", "),
strings.Join(f.Rets, ", "))`. -/
def Func.Signature (f : Func) : String :=
  "( " ++ goJoin ", " f.Args ++ " ) -> ( " ++ goJoin ", " f.Rets ++ " )"

/-- One step of the Levenshtein dynamic program: given the previous row
(its leading entry is `diag`), the character `ca` of the first string, the
remaining characters of the second string, and the value `left` already
computed for the new row, produce the rest of the new row. -/
def levRowGo (ca : Char) : List Char → List Nat → Nat → List Nat
  | cb :: bs, diag :: up :: rest, left =>
      let cost := if ca = cb then diag else diag + 1
      let v := min cost (min (left + 1) (up + 1))
      v :: levRowGo ca bs (up :: rest) v
  | cb :: bs, [diag], left =>
      let cost := if ca = cb then diag else diag + 1
      let v := min cost (left + 1)
      v :: levRowGo ca bs [] v
  | _, _, _ => []

/-- Classic unit-cost Levenshtein edit distance between two strings,
computed row by row.  This embeds the external library call
`levenshtein.ComputeDistance` (src/main.go line 184); the library computes
the classic single-character insert/delete/substitute cost-1 distance with
exactly this row-based dynamic program. -/
def ComputeDistance (a b : String) : Nat :=
  let bs := b.toList
  let init := List.range (bs.length + 1)
  let final := a.toList.foldl
    (fun row ca =>
      match row with
      | r0 :: rest => (r0 + 1) :: levRowGo ca bs (r0 :: rest) (r0 + 1)
      | [] => [])
    init
  final.getLastD 0

/-- The result-emission loop of `main` (src/main.go lines 90-96): entries
are printed from index 0; after printing the entry at index `i`, the loop
breaks when `i > 10 && f.Distance > 30`. -/
def emitFrom : Nat → List FuncWithDistance → List FuncWithDistance
  | _, [] => []
  | i, f :: rest =>
      f :: (if 10 < i ∧ 30 < f.Distance then [] else emitFrom (i + 1) rest)

/-- Entries emitted by `main` for a ranked list (the loop starts at index 0). -/
def emitted (fwd : List FuncWithDistance) : List FuncWithDistance :=
  emitFrom 0 fwd

/-- Number of entries the emission loop prints before breaking. -/
def stopCount : Nat → List FuncWithDistance → Nat
  | _, [] => 0
  | i, f :: rest =>
      (if 10 < i ∧ 30 < f.Distance then 0 else stopCount (i + 1) rest) + 1

/-- Query parser (Go `getInputsAndOutput`, src/main.go lines 142-165):
every `(` and `)` is replaced by a space, the result is split on the
literal `" -> "`, exactly two segments are required, and each segment is
split on `","` with each piece trimmed. -/
def getInputsAndOutput (uinput : String) : Except String (List String × List String) :=
  let u := replaceAll (replaceAll uinput '(' " ") ')' " "
  match splitOnStr " -> " u with
  | [s0, s1] =>
      Except.ok ((splitOnStr "," s0).map trimStr, (splitOnStr "," s1).map trimStr)
  | _ => Except.error "invalid input"

/-- Metacharacter escaping performed by `contains` (src/main.go lines
120-123): each of the eight characters is replaced, in this order, by a
backslash-prefixed copy of itself. -/
def escapeTest (test : String) : String :=
  ['[', ']', '*', '.', '{', '}', '(', ')'].foldl
    (fun t c => replaceAll t c (String.mk ['\\', c])) test

/-- Atom of a compiled pattern: a literal character, the any-character
class `.`, or the text anchors `^` and `$`. -/
inductive RAtom where
  | ch (c : Char)
  | any
  | bol
  | eol
deriving DecidableEq

/-- Postfix repetition operator attached to an atom. -/
inductive RPost where
  | one
  | plus
  | opt
  | star
deriving DecidableEq

/-- One item of a compiled pattern: an atom with its repetition. -/
structure RItem where
  atom : RAtom
  post : RPost
deriving DecidableEq

/-- Parser for the pattern fragment that `regexp.MustCompile` receives from
`contains`: literal characters, backslash-escaped punctuation, the postfix
operators `+`, `?`, `*`, alternation `|`, the class `.` and the anchors `^`
and `$`.  `none` models a compile failure (which `MustCompile` turns into a
panic): a repetition with no preceding atom, a doubled repetition, a
trailing backslash, a backslash before an alphanumeric character, or a
grouping/class construct, which cannot occur in an escaped token and is not
modelled.  `cur` is the current branch in reverse, `acc` the completed
branches in reverse. -/
def reParseGo : List Char → List RItem → List (List RItem) → Option (List (List RItem))
  | [], cur, acc => some ((cur.reverse :: acc).reverse)
  | c :: rest, cur, acc =>
      if c = '|' then reParseGo rest [] (cur.reverse :: acc)
      else if c = '+' ∨ c = '?' ∨ c = '*' then
        match cur with
        | [] => none
        | it :: tl =>
            if it.post ≠ RPost.one then none
            else if c = '+' then reParseGo rest (⟨it.atom, RPost.plus⟩ :: tl) acc
            else if c = '?' then reParseGo rest (⟨it.atom, RPost.opt⟩ :: tl) acc
            else reParseGo rest (⟨it.atom, RPost.star⟩ :: tl) acc
      else if c = '\\' then
        match rest with
        | [] => none
        | d :: rest2 =>
            if d.isAlphanum then none
            else reParseGo rest2 (⟨RAtom.ch d, RPost.one⟩ :: cur) acc
      else if c = '(' ∨ c = ')' ∨ c = '[' ∨ c = ']' ∨ c = '{' ∨ c = '}' then none
      else if c = '.' then reParseGo rest (⟨RAtom.any, RPost.one⟩ :: cur) acc
      else if c = '^' then reParseGo rest (⟨RAtom.bol, RPost.one⟩ :: cur) acc
      else if c = '$' then reParseGo rest (⟨RAtom.eol, RPost.one⟩ :: cur) acc
      else reParseGo rest (⟨RAtom.ch c, RPost.one⟩ :: cur) acc

/-- Compile a pattern string, `none` modelling a `regexp.MustCompile` panic. -/
def reCompile (pat : String) : Option (List (List RItem)) :=
  reParseGo pat.toList [] []

/-- Try one atom at position `i` of `s`; on success return the next
position (anchors consume nothing, `.` matches any character but a
newline). -/
def atomAt (s : List Char) (a : RAtom) (i : Nat) : Option Nat :=
  match a with
  | RAtom.bol => if i = 0 then some i else none
  | RAtom.eol => if i = s.length then some i else none
  | RAtom.any =>
      match s.get? i with
      | some c => if c = '\n' then none else some (i + 1)
      | none => none
  | RAtom.ch c =>
      match s.get? i with
      | some c2 => if c = c2 then some (i + 1) else none
      | none => none

/-- Backtracking matcher for one branch starting at position `i`.  Every
recursive call consumes one unit of fuel; a successful match never needs a
path longer than `s.length + items.length + 1` because a minimal matching
path either consumes a character or discards an item at each step. -/
def seqMatch (s : List Char) : Nat → List RItem → Nat → Bool
  | 0, _, _ => false
  | _ + 1, [], _ => true
  | fuel + 1, it :: rest, i =>
      match it.post with
      | RPost.one =>
          match atomAt s it.atom i with
          | some i2 => seqMatch s fuel rest i2
          | none => false
      | RPost.opt =>
          (match atomAt s it.atom i with
           | some i2 => seqMatch s fuel rest i2
           | none => false) || seqMatch s fuel rest i
      | RPost.plus =>
          match atomAt s it.atom i with
          | some i2 => seqMatch s fuel (it :: rest) i2 || seqMatch s fuel rest i2
          | none => false
      | RPost.star =>
          (match atomAt s it.atom i with
           | some i2 => seqMatch s fuel (it :: rest) i2 || seqMatch s fuel rest i2
           | none => false) || seqMatch s fuel rest i

/-- Unanchored match of a compiled pattern against a string, as
`Regexp.MatchString`: some branch matches starting at some position. -/
def rMatchString (r : List (List RItem)) (s : String) : Bool :=
  let cs := s.toList
  (List.range (cs.length + 1)).any fun i =>
    r.any fun seq => seqMatch cs (cs.length + seq.length + 1) seq i

/-- Containment check (Go `contains`, src/main.go lines 118-140): every
requested token, after escaping, must match at least one item.  The inner
loop compiles the escaped token before testing each item, so an
uncompilable token panics (modelled by `none`) only when `items` is
nonempty; a token with no matching item returns `false` before later
tokens are compiled. -/
def contains : List String → List String → Option Bool
  | _, [] => some true
  | items, test :: rest =>
      let esc := escapeTest test
      match items with
      | [] => some false
      | _ :: _ =>
          match reCompile esc with
          | none => none
          | some r =>
              if items.any fun a => rMatchString r a then contains items rest
              else some false

/-- Containment filter (Go `filterIncludes`, src/main.go lines 99-116): a
record is skipped when its `Args` or `Rets` are shorter than the query
token lists, then kept exactly when both sides pass `contains`; a panic in
`contains` (modelled by `none`) aborts the whole filter, and the right side
is only evaluated when the left side passed. -/
def filterIncludes : List Func → List String → List String → Option (List Func)
  | [], _, _ => some []
  | f :: fs, inputs, outputs =>
      if f.Args.length < inputs.length ∨ f.Rets.length < outputs.length then
        filterIncludes fs inputs outputs
      else
        match contains f.Args inputs with
        | none => none
        | some false => filterIncludes fs inputs outputs
        | some true =>
            match contains f.Rets outputs with
            | none => none
            | some false => filterIncludes fs inputs outputs
            | some true => (filterIncludes fs inputs outputs).map (f :: ·)

section SortSlice

/-!
Model of the Go standard library call `sort.Slice` (src/main.go lines
192-194).  `sort.Slice` is documented as NOT guaranteeing stability; since
Go 1.19 it runs the pattern-defeating quicksort of `sort/zsortfunc.go`,
transliterated here.  The Go slice with its index-based `Less`/`Swap` pair
is modelled as a `List` with positional `lget`/`lswap` (all accesses made
by the algorithm are in bounds, so the out-of-bounds defaults are never
exercised); loops with a decreasing signed index `j` are encoded through
`j1 = j + 1` so that indices stay in `Nat`, and every loop carries a
`fuel` counter initialized above its iteration bound, keeping every
definition structurally recursive.
-/

/-- Positional read of a slice element. -/
def lget {β : Type} [Inhabited β] : List β → Nat → β
  | [], _ => default
  | x :: _, 0 => x
  | _ :: xs, i + 1 => lget xs i

/-- Positional write of a slice element. -/
def lset {β : Type} : List β → Nat → β → List β
  | [], _, _ => []
  | _ :: xs, 0, v => v :: xs
  | x :: xs, i + 1, v => x :: lset xs i v

/-- The `Swap(i, j)` callback `sort.Slice` builds for a slice. -/
def lswap {β : Type} [Inhabited β] (l : List β) (i j : Nat) : List β :=
  lset (lset l i (lget l j)) j (lget l i)

variable {α : Type} [Inhabited α] (less : α → α → Bool)

/-- Inner loop of `insertionSort_func`: sift the element at `j` down while
it is less than its left neighbour and `j > a`.  Fuel bound: `j`. -/
def insInner (a : Nat) : Nat → List α → Nat → List α
  | 0, arr, _ => arr
  | fuel + 1, arr, j =>
      if a < j ∧ less (lget arr j) (lget arr (j - 1)) then
        insInner a fuel (lswap arr j (j - 1)) (j - 1)
      else arr

/-- Outer loop of `insertionSort_func` over `i = a+1, …, b-1`.
Fuel bound: `b`. -/
def insOuter (a b : Nat) : Nat → List α → Nat → List α
  | 0, arr, _ => arr
  | fuel + 1, arr, i =>
      if i < b then insOuter a b fuel (insInner less a i arr i) (i + 1) else arr

/-- Go `insertionSort_func(data, a, b)`. -/
def insertionSortA (arr : List α) (a b : Nat) : List α :=
  insOuter less a b b arr (a + 1)

/-- Go `siftDown_func(data, lo, hi, first)` with current root `root`.
The root at least doubles every iteration; fuel bound: `hi`. -/
def siftDownA (hi first : Nat) : Nat → List α → Nat → List α
  | 0, arr, _ => arr
  | fuel + 1, arr, root =>
      if 2 * root + 1 < hi then
        let child :=
          if 2 * root + 2 < hi ∧ less (lget arr (first + 2 * root + 1)) (lget arr (first + 2 * root + 2)) then
            2 * root + 2
          else 2 * root + 1
        if less (lget arr (first + root)) (lget arr (first + child)) then
          siftDownA hi first fuel (lswap arr (first + root) (first + child)) child
        else arr
      else arr

/-- Heap-building loop of `heapSort_func`: `cnt` counts the remaining
roots, the current root is `cnt - 1`. -/
def heapBuild (hi first : Nat) (arr : List α) : Nat → List α
  | 0 => arr
  | cnt + 1 => heapBuild hi first (siftDownA less hi first hi arr cnt) cnt

/-- Pop loop of `heapSort_func`: `cnt` counts remaining iterations, the
current index is `cnt - 1`. -/
def heapPop (first : Nat) (arr : List α) : Nat → List α
  | 0 => arr
  | cnt + 1 =>
      let arr := lswap arr first (first + cnt)
      heapPop first (siftDownA less cnt first cnt arr 0) cnt

/-- Go `heapSort_func(data, a, b)`. -/
def heapSortA (arr : List α) (a b : Nat) : List α :=
  let first := a
  let hi := b - a
  heapPop less first (heapBuild less hi first arr ((hi - 1) / 2 + 1)) hi

/-- Advance loop `for i <= j && data.Less(i, a) { i++ }` of
`partition_func`, with `j1 = j + 1`.  Fuel bound: `j1`. -/
def advI (arr : List α) (a j1 : Nat) : Nat → Nat → Nat
  | 0, i => i
  | fuel + 1, i =>
      if i < j1 ∧ less (lget arr i) (lget arr a) then advI arr a j1 fuel (i + 1) else i

/-- Retreat loop `for i <= j && !data.Less(j, a) { j-- }` of
`partition_func`, with `j1 = j + 1`.  Fuel bound: `j1`. -/
def advJ1 (arr : List α) (a i : Nat) : Nat → Nat → Nat
  | 0, j1 => j1
  | fuel + 1, j1 =>
      if i < j1 ∧ ¬ less (lget arr (j1 - 1)) (lget arr a) then advJ1 arr a i fuel (j1 - 1) else j1

/-- Main exchange loop of `partition_func`: advance `i`, retreat `j`, swap
and repeat until the indices cross; returns the final list and `j`.
`j1` strictly decreases every iteration; fuel bound: `j1`. -/
def partMain (a : Nat) : Nat → List α → Nat → Nat → List α × Nat
  | 0, arr, _, j1 => (arr, j1 - 1)
  | fuel + 1, arr, i, j1 =>
      let i2 := advI less arr a j1 j1 i
      let j12 := advJ1 less arr a i2 j1 j1
      if i2 ≥ j12 then (arr, j12 - 1)
      else partMain a fuel (lswap arr i2 (j12 - 1)) (i2 + 1) (j12 - 1)

/-- Go `partition_func(data, a, b, pivot)`: returns the list, the final
pivot position and whether the range was already partitioned. -/
def partitionF (arr0 : List α) (a b pivot : Nat) : List α × Nat × Bool :=
  let arr := lswap arr0 a pivot
  let i := advI less arr a b b (a + 1)
  let j1 := advJ1 less arr a i b b
  if i ≥ j1 then
    let j := j1 - 1
    (lswap arr j a, j, true)
  else
    let p := partMain less a b (lswap arr i (j1 - 1)) (i + 1) (j1 - 1)
    (lswap p.1 p.2 a, p.2, false)

/-- Advance loop `for i <= j && !data.Less(a, i) { i++ }` of
`partitionEqual_func`.  Fuel bound: `j1`. -/
def advIE (arr : List α) (a j1 : Nat) : Nat → Nat → Nat
  | 0, i => i
  | fuel + 1, i =>
      if i < j1 ∧ ¬ less (lget arr a) (lget arr i) then advIE arr a j1 fuel (i + 1) else i

/-- Retreat loop `for i <= j && data.Less(a, j) { j-- }` of
`partitionEqual_func`, with `j1 = j + 1`.  Fuel bound: `j1`. -/
def advJ1E (arr : List α) (a i : Nat) : Nat → Nat → Nat
  | 0, j1 => j1
  | fuel + 1, j1 =>
      if i < j1 ∧ less (lget arr a) (lget arr (j1 - 1)) then advJ1E arr a i fuel (j1 - 1) else j1

/-- Main exchange loop of `partitionEqual_func`; returns the list and the
final `i`, the start of the strictly-greater suffix.  Fuel bound: `j1`. -/
def partEqMain (a : Nat) : Nat → List α → Nat → Nat → List α × Nat
  | 0, arr, i, _ => (arr, i)
  | fuel + 1, arr, i, j1 =>
      let i2 := advIE less arr a j1 j1 i
      let j12 := advJ1E less arr a i2 j1 j1
      if i2 ≥ j12 then (arr, i2)
      else partEqMain a fuel (lswap arr i2 (j12 - 1)) (i2 + 1) (j12 - 1)

/-- Go `partitionEqual_func(data, a, b, pivot)`: partitions the range into
elements equal to and greater than the pivot; returns the list and the
first index of the greater part. -/
def partitionEqualF (arr0 : List α) (a b pivot : Nat) : List α × Nat :=
  partEqMain less a b (lswap arr0 a pivot) (a + 1) b

/-- Scan of `partialInsertionSort_func`: advance `i` over the already
sorted prefix.  Fuel bound: `b`. -/
def scanSorted (b : Nat) (arr : List α) : Nat → Nat → Nat
  | 0, i => i
  | fuel + 1, i =>
      if i < b ∧ ¬ less (lget arr i) (lget arr (i - 1)) then scanSorted b arr fuel (i + 1) else i

/-- Left shift loop of `partialInsertionSort_func`
(`for j := i - 1; j >= 1; j--`). -/
def shiftLeftLoop (arr : List α) : Nat → List α
  | 0 => arr
  | j + 1 =>
      if less (lget arr (j + 1)) (lget arr j) then shiftLeftLoop (lswap arr (j + 1) j) j
      else arr

/-- Right shift loop of `partialInsertionSort_func`
(`for j := i + 1; j < b; j++`).  Fuel bound: `b`. -/
def shiftRightLoop (b : Nat) : Nat → List α → Nat → List α
  | 0, arr, _ => arr
  | fuel + 1, arr, j =>
      if j < b ∧ less (lget arr j) (lget arr (j - 1)) then shiftRightLoop b fuel (lswap arr j (j - 1)) (j + 1)
      else arr

/-- Go `partialInsertionSort_func(data, a, b)`: at most five attempts
(`steps`) to repair an almost sorted range; returns the list and whether
the range ended up sorted.  `shortestShifting = 50`. -/
def ptlInsSortF (a b : Nat) (arr : List α) (i : Nat) : Nat → List α × Bool
  | 0 => (arr, false)
  | steps + 1 =>
      let i2 := scanSorted less b arr b i
      if i2 = b then (arr, true)
      else if b - a < 50 then (arr, false)
      else
        let arr := lswap arr i2 (i2 - 1)
        let arr := if i2 - a ≥ 2 then shiftLeftLoop less arr (i2 - 1) else arr
        let arr := if b - i2 ≥ 2 then shiftRightLoop less b b arr (i2 + 1) else arr
        ptlInsSortF a b arr i2 steps

/-- Sortedness hint returned by `choosePivot_func`. -/
inductive SortedHint where
  | increasing
  | decreasing
  | unknown
deriving DecidableEq

/-- Go `order2_func`: order two indices by the values they point to,
counting a swap. -/
def order2F (arr : List α) (x y sw : Nat) : Nat × Nat × Nat :=
  if less (lget arr y) (lget arr x) then (y, x, sw + 1) else (x, y, sw)

/-- Go `median_func`: index of the median of three values. -/
def medianF (arr : List α) (x y z sw : Nat) : Nat × Nat :=
  let (x, y, sw) := order2F less arr x y sw
  let (y, _, sw) := order2F less arr y z sw
  let (_, y, sw) := order2F less arr x y sw
  (y, sw)

/-- Go `medianAdjacent_func`: median of an index and its two neighbours. -/
def medianAdjF (arr : List α) (i sw : Nat) : Nat × Nat :=
  medianF less arr (i - 1) i (i + 1) sw

/-- Go `choosePivot_func(data, a, b)`: median-of-three (or ninther above
length 50) pivot selection, with a sortedness hint derived from the number
of comparison swaps (`maxSwaps = 12`). -/
def choosePivotF (arr : List α) (a b : Nat) : Nat × SortedHint :=
  let l := b - a
  let i := a + l / 4 * 1
  let j := a + l / 4 * 2
  let k := a + l / 4 * 3
  let (j, swaps) :=
    if l ≥ 8 then
      if l ≥ 50 then
        let (i, sw) := medianAdjF less arr i 0
        let (j, sw) := medianAdjF less arr j sw
        let (k, sw) := medianAdjF less arr k sw
        medianF less arr i j k sw
      else medianF less arr i j k 0
    else (j, 0)
  if swaps = 0 then (j, SortedHint.increasing)
  else if swaps = 12 then (j, SortedHint.decreasing)
  else (j, SortedHint.unknown)

/-- Go `reverseRange_func(data, a, b)`, with `j1 = j + 1`.
Fuel bound: `j1`. -/
def reverseRangeF : Nat → List α → Nat → Nat → List α
  | 0, arr, _, _ => arr
  | fuel + 1, arr, i, j1 =>
      if i + 1 < j1 then reverseRangeF fuel (lswap arr i (j1 - 1)) (i + 1) (j1 - 1) else arr

/-- One step of the xorshift generator used by `breakPatterns_func`,
on 64-bit words. -/
def xorshiftNext (x : Nat) : Nat :=
  let m := 2 ^ 64
  let x := (Nat.xor x (x <<< 13)) % m
  let x := Nat.xor x (x >>> 7)
  (Nat.xor x (x <<< 17)) % m

/-- Worker for `bitsLen`, halving until zero; the fuel dominates the
number of halvings. -/
def bitsLenGo : Nat → Nat → Nat
  | 0, _ => 0
  | _ + 1, 0 => 0
  | fuel + 1, n + 1 => bitsLenGo fuel ((n + 1) / 2) + 1

/-- Go `bits.Len(n)`: position of the highest set bit. -/
def bitsLen (n : Nat) : Nat :=
  bitsLenGo n n

/-- Go `breakPatterns_func(data, a, b)`: swap three elements around the
midpoint with pseudo-random other elements, seeding xorshift with the
length. -/
def breakPatternsF (arr : List α) (a b : Nat) : List α :=
  let length := b - a
  if length ≥ 8 then
    let modulus := 2 ^ bitsLen length
    let idx := a + length / 4 * 2 - 1
    let r1 := xorshiftNext length
    let o1 := let t := r1 % modulus; if t ≥ length then t - length else t
    let arr := lswap arr (idx - 1) (a + o1)
    let r2 := xorshiftNext r1
    let o2 := let t := r2 % modulus; if t ≥ length then t - length else t
    let arr := lswap arr idx (a + o2)
    let r3 := xorshiftNext r2
    let o3 := let t := r3 % modulus; if t ≥ length then t - length else t
    lswap arr (idx + 1) (a + o3)
  else arr

/-- Go `pdqsort_func(data, a, b, limit)` (the body of `sort.Slice`): the
outer loop is the tail recursion carrying `wasBalanced` and
`wasPartitioned`; child calls restart with both flags true.  `fuel` only
bounds the recursion depth for Lean and is never exhausted when it starts
at least at `(b - a + 2)^2`, since every continue or child call strictly
shrinks the range. -/
def pdqLoop : List α → Nat → Nat → Nat → Bool → Bool → Nat → List α
  | arr, _, _, _, _, _, 0 => arr
  | arr, a, b, limit, wasBalanced, wasPartitioned, fuel + 1 =>
      let length := b - a
      if length ≤ 12 then insertionSortA less arr a b
      else if limit = 0 then heapSortA less arr a b
      else
        let (arr, limit) :=
          if ¬ wasBalanced then (breakPatternsF arr a b, limit - 1) else (arr, limit)
        let (pivot, hint) := choosePivotF less arr a b
        let (arr, pivot, hint) :=
          if hint = SortedHint.decreasing then
            (reverseRangeF b arr a b, (b - 1) - (pivot - a), SortedHint.increasing)
          else (arr, pivot, hint)
        match (if wasBalanced ∧ wasPartitioned ∧ hint = SortedHint.increasing then
                 ptlInsSortF less a b arr (a + 1) 5
               else (arr, false)) with
        | (arr, true) => arr
        | (arr, false) =>
            if 0 < a ∧ ¬ less (lget arr (a - 1)) (lget arr pivot) then
              let (arr, mid) := partitionEqualF less arr a b pivot
              pdqLoop arr mid b limit wasBalanced wasPartitioned fuel
            else
              let (arr, mid, alreadyPartitioned) := partitionF less arr a b pivot
              let wasPartitioned := alreadyPartitioned
              let wasBalanced := decide (min (mid - a) (b - mid) ≥ length / 8)
              if mid - a < b - mid then
                let arr := pdqLoop arr a mid limit true true fuel
                pdqLoop arr (mid + 1) b limit wasBalanced wasPartitioned fuel
              else
                let arr := pdqLoop arr (mid + 1) b limit true true fuel
                pdqLoop arr a mid limit wasBalanced wasPartitioned fuel

/-- Model of `sort.Slice(x, less)`: pdqsort over the whole slice with
`limit = bits.Len(length)`. -/
def sortSliceModel (xs : List α) : List α :=
  pdqLoop less xs 0 xs.length (bitsLen xs.length) true true ((xs.length + 2) * (xs.length + 2))

end SortSlice

/-- Ranking (Go `sortByDistance`, src/main.go lines 177-205): pair every
record with the edit distance between the raw query and its canonical
signature, sort by distance with `sort.Slice`, and return the pairs. -/
def sortByDistance (funcs : List Func) (uinput : String) : List FuncWithDistance :=
  let distanceMap := funcs.map fun f =>
    FuncWithDistance.mk f (ComputeDistance uinput f.Signature)
  sortSliceModel (fun x y => decide (x.Distance < y.Distance)) distanceMap

/-- Record with one argument token of `k` repeated characters and no
returns; its canonical signature has length `12 + k`, so its distance to
the query `" -> "` is `8 + k`. -/
def mkRec (name : String) (k : Nat) : Func :=
  ⟨"f.go", [0, 0], name, [String.mk (List.replicate k 'x')], []⟩

/-- Thirteen records whose distances to the query `" -> "` are
`[22, 17, 18, 22, 13, 14, 17, 15, 16, 22, 19, 20, 21]`: records r0, r3 and
r9 tie at distance 22 (and r1, r6 at 17), exposing the stability behaviour
of `sort.Slice`. -/
def c2Input : List Func :=
  [mkRec "r0" 14, mkRec "r1" 9, mkRec "r2" 10, mkRec "r3" 14, mkRec "r4" 5,
   mkRec "r5" 6, mkRec "r6" 9, mkRec "r7" 7, mkRec "r8" 8, mkRec "r9" 14,
   mkRec "r10" 11, mkRec "r11" 12, mkRec "r12" 13]

/-!
Claim-side definitions: predicates and concrete inputs used to state and
instantiate the claims.
-/

/-- Matching of one requested token against one actual token, as the
claim describes it: the token is escaped, compiled, and matched
unanchored; `none` when the escaped token does not compile. -/
def tokenMatch (t a : String) : Option Bool :=
  (reCompile (escapeTest t)).map fun r => rMatchString r a

/-- One side of the containment claim: every requested token matches at
least one actual token, order- and multiplicity-independent. -/
def sideMatched (items tests : List String) : Prop :=
  ∀ t ∈ tests, ∃ a ∈ items, tokenMatch t a = some true

/-- The query-pattern transformation as the claim words it: strip (delete)
all parenthesis characters. -/
def specStrip (s : String) : String :=
  String.mk (s.toList.filter fun c => c ≠ '(' ∧ c ≠ ')')

/-- Canonical signature format as the amended claim words it: one space
after `(` and before `)`, tokens joined by `", "` and passed through
verbatim, and an empty side rendered as `(  )` (the two spaces being the
one after `(` and the one before `)`, with no tokens between them). -/
def specSignature (f : Func) : String :=
  (if f.Args.isEmpty then "(  )" else "( " ++ goJoin ", " f.Args ++ " )") ++ " -> " ++
    (if f.Rets.isEmpty then "(  )" else "( " ++ goJoin ", " f.Rets ++ " )")

/-- The scenario record of the spec: `Foo` with parameters
`(a int, b string)` and results `(bool, error)`. -/
def fooRec : Func :=
  ⟨"main.go", [0, 0], "Foo", ["int", "string"], ["bool", "error"]⟩

/-- The includes-mode scenario record of the spec. -/
def pathRec : Func :=
  ⟨"pkg/path/drive.go", [19, 0], "ToDrivePath", ["Path"], ["*DrivePath", "error"]⟩

/-- Thirteen ranked entries, all of distance 31, for instantiating the
truncation boundary. -/
def w13 : List FuncWithDistance :=
  List.replicate 13 ⟨⟨"w.go", [0, 0], "W", [], []⟩, 31⟩

set_option maxRecDepth 1000000

set_option maxHeartbeats 2000000 in
/-- C2 (code bug in the source): `sortByDistance` sorts with Go's
`sort.Slice`, whose pattern-defeating quicksort is not stable.  On the
thirteen records of `c2Input` with query `" -> "`, the records r0, r3 and
r9 all have computed distance 22 and appear in that input order, yet the
sort emits them in the order r3, r9, r0: records of equal distance do not
retain their relative input order, contradicting the stable-sort claim. -/
theorem claim_C2_sort_slice_unstable :
    c2Input.map (fun f => (f.Name, ComputeDistance " -> " f.Signature)) =
      [("r0", 22), ("r1", 17), ("r2", 18), ("r3", 22), ("r4", 13), ("r5", 14), ("r6", 17),
       ("r7", 15), ("r8", 16), ("r9", 22), ("r10", 19), ("r11", 20), ("r12", 21)] ∧
    (sortByDistance c2Input " -> ").map (fun x => (x.Func.Name, x.Distance)) =
      [("r4", 13), ("r5", 14), ("r7", 15), ("r8", 16), ("r1", 17), ("r6", 17), ("r2", 18),
       ("r10", 19), ("r11", 20), ("r12", 21), ("r3", 22), ("r9", 22), ("r0", 22)] :=
  ⟨by decide, by decide⟩

/-- C3 counterexample: for the spec's scenario record `Foo` and the query
`"(int, string) -> (bool, error)"`, the computed edit distance is 4, not 0:
the canonical signature carries a space after each `(` and before each `)`
that the raw query pattern lacks. -/
theorem claim_C3_counterexample :
    fooRec.Signature = "( int, string ) -> ( bool, error )" ∧
    ComputeDistance "(int, string) -> (bool, error)" fooRec.Signature = 4 ∧
    ComputeDistance "(int, string) -> (bool, error)" fooRec.Signature ≠ 0 :=
  ⟨by decide, by decide, by decide⟩

/-- C3 amended: ranking `Foo` under the query
`"(int, string) -> (bool, error)"` in default mode assigns it distance 4
(the Levenshtein distance between the raw query and the canonical
signature) and ranks it first. -/
theorem claim_C3_amended :
    ComputeDistance "(int, string) -> (bool, error)" fooRec.Signature = 4 ∧
    sortByDistance [fooRec] "(int, string) -> (bool, error)" = [⟨fooRec, 4⟩] :=
  ⟨by decide, by decide⟩

/-- C4 counterexample: a record with empty argument and return lists
canonicalizes to `"(  ) -> (  )"` — two spaces inside each empty group —
not to `"( ) -> ( )"` as the claim's `( )` rendering states. -/
theorem claim_C4_counterexample :
    Func.Signature ⟨"e.go", [0, 0], "E", [], []⟩ = "(  ) -> (  )" ∧
    Func.Signature ⟨"e.go", [0, 0], "E", [], []⟩ ≠ "( ) -> ( )" :=
  ⟨by decide, by decide⟩

/-- C8: the containment check is not total.  The token `"+"` survives
escaping unchanged and fails to compile, so `contains` panics (`none`) and
`filterIncludes` aborts; tokens such as `"a+b"` or `"a|b"` that do compile
are matched as pattern syntax, not literal text — `"a+b"` matches `"aab"`
but not the literal text `"a+b"` itself, and `"a|b"` matches `"zzb"`. -/
theorem claim_C8_contains_not_total :
    contains ["x"] ["+"] = none ∧
    filterIncludes [⟨"c.go", [0, 0], "C", ["x"], []⟩] ["+"] [] = none ∧
    contains ["aab"] ["a+b"] = some true ∧
    contains ["a+b"] ["a+b"] = some false ∧
    contains ["zzb"] ["a|b"] = some true :=
  ⟨by decide, by decide, by decide, by decide, by decide⟩

/-- C5 counterexample: the claim says the parser strips (deletes) all
parentheses before splitting on `" -> "`.  Under that algorithm the
pattern `"(int)->(bool)"` yields the single segment `"int->bool"` and must
be rejected; the code instead replaces each parenthesis with a space,
obtains two segments, and accepts the pattern. -/
theorem claim_C5_counterexample :
    splitOnStr " -> " (specStrip "(int)->(bool)") = ["int->bool"] ∧
    getInputsAndOutput "(int)->(bool)" = Except.ok (["int"], ["bool"]) :=
  ⟨by decide, rfl⟩

/-- The emission loop takes exactly the prefix counted by `stopCount`. -/
theorem emitFrom_eq_take (l : List FuncWithDistance) : ∀ i, emitFrom i l = l.take (stopCount i l) := by
  induction l with
  | nil => intro i; rfl
  | cons f rest ih =>
      intro i
      by_cases h : 10 < i ∧ 30 < f.Distance
      · simp [emitFrom, stopCount, h]
      · simp [emitFrom, stopCount, h, ih]

/-- Before index 11 no entry can trigger the break, so a list that ends
within the first `11 - i` positions is emitted whole. -/
theorem stopCount_short (l : List FuncWithDistance) : ∀ i, i ≤ 10 → l.length ≤ 11 - i →
    stopCount i l = l.length := by
  induction l with
  | nil => intro i _ _; rfl
  | cons f rest ih =>
      intro i hi hlen
      have hc : ¬ (10 < i ∧ 30 < f.Distance) := by omega
      rcases Nat.lt_or_ge i 10 with hlt | hge
      · simp only [List.length_cons] at hlen
        rw [stopCount, if_neg hc, ih (i + 1) (by omega) (by omega)]
        simp
      · have hi10 : i = 10 := by omega
        subst hi10
        have hr : rest = [] := by
          simp only [List.length_cons] at hlen
          rw [← List.length_eq_zero]
          omega
        subst hr
        simp [stopCount]

/-- When the list reaches past index 10, the loop runs the first `11 - i`
entries unconditionally and continues from index 11. -/
theorem stopCount_reach (l : List FuncWithDistance) : ∀ i, i ≤ 10 → 11 - i < l.length →
    stopCount i l = (11 - i) + stopCount 11 (l.drop (11 - i)) := by
  induction l with
  | nil => intro i _ h; simp at h
  | cons f rest ih =>
      intro i hi hlen
      have hc : ¬ (10 < i ∧ 30 < f.Distance) := by omega
      rcases Nat.lt_or_ge i 10 with hlt | hge
      · simp only [List.length_cons] at hlen
        rw [stopCount, if_neg hc, ih (i + 1) (by omega) (by omega)]
        have h1 : 11 - i = (10 - i) + 1 := by omega
        have h2 : 11 - (i + 1) = 10 - i := by omega
        rw [h2, h1, List.drop_succ_cons]
        omega
      · have hi10 : i = 10 := by omega
        subst hi10
        rw [stopCount, if_neg hc]
        norm_num
        omega

/-- A singleton is always fully emitted. -/
theorem stopCount_singleton (i : Nat) (y : FuncWithDistance) : stopCount i [y] = 1 := by
  simp [stopCount]

/-- At least one entry of a nonempty list is emitted. -/
theorem stopCount_pos (i : Nat) (y : FuncWithDistance) (t : List FuncWithDistance) :
    1 ≤ stopCount i (y :: t) := by
  rw [stopCount]
  omega

/-- The entry at index 11 heads the list dropped at 11. -/
theorem drop11_eq_cons (l : List FuncWithDistance) (x : FuncWithDistance)
    (hx : l.get? 11 = some x) : l.drop 11 = x :: l.drop 12 := by
  obtain ⟨h11, he⟩ := List.get?_eq_some.mp hx
  rw [List.drop_eq_getElem_cons h11]
  simp only [List.get_eq_getElem] at he
  rw [he]

/-- C1: emission walks the ranked list from index 0 and, after emitting
the entry at index `i`, stops exactly when `i > 10` and the entry's
distance exceeds 30 — so (1) for a list of length at least 13 whose entry
at index 11 has distance above 30, exactly the entries at indices 0..11
are emitted; (2) if that entry's distance is at most 30, emission
continues past index 12; and (3) a list of at most 12 entries is always
emitted whole, since no index up to 11 can trigger the stop as the
boundary entry is itself emitted. -/
theorem claim_C1_truncation :
    (∀ (l : List FuncWithDistance) (x : FuncWithDistance),
        13 ≤ l.length → l.get? 11 = some x → 30 < x.Distance → emitted l = l.take 12) ∧
    (∀ (l : List FuncWithDistance) (x : FuncWithDistance),
        13 ≤ l.length → l.get? 11 = some x → x.Distance ≤ 30 → 13 ≤ (emitted l).length) ∧
    (∀ l : List FuncWithDistance, l.length ≤ 12 → emitted l = l) := by
  refine ⟨?_, ?_, ?_⟩
  · intro l x hlen hx hd
    have hs : stopCount 0 l = 12 := by
      rw [stopCount_reach l 0 (by omega) (by omega)]
      norm_num
      rw [drop11_eq_cons l x hx, stopCount, if_pos ⟨by omega, hd⟩]
    rw [emitted, emitFrom_eq_take, hs]
  · intro l x hlen hx hd
    have hs : 13 ≤ stopCount 0 l := by
      rw [stopCount_reach l 0 (by omega) (by omega)]
      norm_num
      rw [drop11_eq_cons l x hx, stopCount, if_neg (by omega)]
      have hnorm : stopCount (11 + 1) (l.drop 12) = stopCount 12 (l.drop 12) := rfl
      rw [hnorm]
      have h12 : l.drop 12 ≠ [] := by
        intro hnil
        have := List.length_drop 12 l
        rw [hnil] at this
        simp at this
        omega
      obtain ⟨y, t, hyt⟩ := List.exists_cons_of_ne_nil h12
      rw [hyt]
      have := stopCount_pos 12 y t
      omega
    rw [emitted, emitFrom_eq_take]
    rw [List.length_take]
    omega
  · intro l hlen
    rcases Nat.lt_or_ge 11 l.length with hgt | hle
    · have h12 : l.length = 12 := by omega
      have hs : stopCount 0 l = 12 := by
        rw [stopCount_reach l 0 (by omega) (by omega)]
        norm_num
        have hone : (l.drop 11).length = 1 := by
          rw [List.length_drop]
          omega
        obtain ⟨y, hy⟩ := List.length_eq_one.mp hone
        rw [hy, stopCount_singleton]
      rw [emitted, emitFrom_eq_take, hs, ← h12, List.take_length]
    · have hs : stopCount 0 l = l.length := stopCount_short l 0 (by omega) (by omega)
      rw [emitted, emitFrom_eq_take, hs, List.take_length]

/-- C1 witness: on a concrete 13-entry ranked list whose entry at index 11
has distance 31, emission yields exactly the first 12 entries. -/
theorem claim_C1_truncation_witness :
    13 ≤ w13.length ∧ emitted w13 = w13.take 12 :=
  ⟨by decide, claim_C1_truncation.1 w13 ⟨⟨"w.go", [0, 0], "W", [], []⟩, 31⟩ (by decide) (by decide) (by decide)⟩


/-- C4 amended: for every record, the canonical signature is
`"( a1, a2, … ) -> ( r1, r2, … )"` — one space after each `(`, one before
each `)`, `", "` as separator, tokens passed through verbatim — and an
empty side renders as `"(  )"`: the space after `(` and the space before
`)` with no tokens between them. -/
theorem claim_C4_amended : ∀ f : Func, f.Signature = specSignature f := by
  intro f
  obtain ⟨p, loc, n, args, rets⟩ := f
  cases args with
  | nil =>
      cases rets with
      | nil => rfl
      | cons r rs =>
          rw [Func.Signature, specSignature]
          simp only [List.isEmpty_nil, List.isEmpty_cons, if_true, if_false, Bool.false_eq_true]
          apply String.ext
          simp [String.data_append, List.append_assoc]
          rfl
  | cons a as =>
      cases rets with
      | nil =>
          rw [Func.Signature, specSignature]
          simp only [List.isEmpty_nil, List.isEmpty_cons, if_true, if_false, Bool.false_eq_true]
          apply String.ext
          simp [String.data_append, List.append_assoc]
          rfl
      | cons r rs =>
          rw [Func.Signature, specSignature]
          simp only [List.isEmpty_nil, List.isEmpty_cons, if_true, if_false, Bool.false_eq_true]
          apply String.ext
          simp [String.data_append, List.append_assoc]

/-- One unfolding step of `contains` on a nonempty test list. -/
theorem contains_cons (items : List String) (t : String) (rest : List String) :
    contains items (t :: rest) =
      match items with
      | [] => some false
      | _ :: _ =>
          match reCompile (escapeTest t) with
          | none => none
          | some r => if items.any fun a => rMatchString r a then contains items rest else some false :=
  rfl

/-- Scanning the items for a compiled token succeeds exactly when some
item matches the token. -/
theorem any_match_iff (items : List String) (t : String) (r : List (List RItem))
    (hc : reCompile (escapeTest t) = some r) :
    ((items.any fun a => rMatchString r a) = true ↔ ∃ a ∈ items, tokenMatch t a = some true) := by
  rw [List.any_eq_true]
  constructor
  · rintro ⟨a, ha, hm⟩
    exact ⟨a, ha, by simp [tokenMatch, hc, hm]⟩
  · rintro ⟨a, ha, hm⟩
    refine ⟨a, ha, ?_⟩
    rw [tokenMatch, hc] at hm
    simpa using hm

/-- `contains` returns `some true` exactly when every requested token
matches at least one item. -/
theorem contains_true_iff (items : List String) :
    ∀ tests, contains items tests = some true ↔ sideMatched items tests := by
  intro tests
  induction tests with
  | nil => simp [contains, sideMatched]
  | cons t rest ih =>
      rw [sideMatched] at ih ⊢
      rw [contains_cons, List.forall_mem_cons, ← ih]
      cases items with
      | nil =>
          constructor
          · intro h; exact absurd h (by simp)
          · rintro ⟨⟨a, ha, _⟩, _⟩; exact absurd ha (List.not_mem_nil a)
      | cons x xs =>
          rcases hc : reCompile (escapeTest t) with _ | r
          · simp only [hc]
            constructor
            · intro h; exact absurd h (by simp)
            · rintro ⟨⟨a, _, hm⟩, _⟩
              rw [tokenMatch, hc] at hm
              simp at hm
          · simp only [hc]
            by_cases hany : ((x :: xs).any fun a => rMatchString r a) = true
            · rw [if_pos hany]
              have hex := (any_match_iff (x :: xs) t r hc).mp hany
              exact ⟨fun h => ⟨hex, h⟩, fun h => h.2⟩
            · rw [if_neg hany]
              constructor
              · intro h; exact absurd h (by simp)
              · rintro ⟨hex, _⟩
                exact absurd ((any_match_iff (x :: xs) t r hc).mpr hex) hany

/-- A successful containment filter returns a subsequence of its input. -/
theorem filterIncludes_sublist :
    ∀ (funcs : List Func) (ins outs : List String) (res : List Func),
      filterIncludes funcs ins outs = some res → res.Sublist funcs := by
  intro funcs
  induction funcs with
  | nil =>
      intro ins outs res h
      rw [filterIncludes] at h
      cases h
      exact List.Sublist.refl []
  | cons f fs ih =>
      intro ins outs res h
      rw [filterIncludes] at h
      by_cases hpre : f.Args.length < ins.length ∨ f.Rets.length < outs.length
      · rw [if_pos hpre] at h
        exact (ih ins outs res h).cons f
      · rw [if_neg hpre] at h
        rcases hA : contains f.Args ins with _ | bA
        · rw [hA] at h; exact Option.noConfusion h
        · rw [hA] at h
          cases bA with
          | false => exact (ih ins outs res h).cons f
          | true =>
              rcases hR : contains f.Rets outs with _ | bR
              · rw [hR] at h; exact Option.noConfusion h
              · rw [hR] at h
                cases bR with
                | false => exact (ih ins outs res h).cons f
                | true =>
                    rcases hfs : filterIncludes fs ins outs with _ | res0
                    · rw [hfs] at h; exact Option.noConfusion h
                    · rw [hfs] at h
                      have hres : f :: res0 = res := by simpa using h
                      rw [← hres]
                      exact (ih ins outs res0 hfs).cons₂ f

/-- Every record a successful filter keeps passed the cardinality
pre-check. -/
theorem mem_filterIncludes_precheck :
    ∀ (funcs : List Func) (ins outs : List String) (res : List Func) (g : Func),
      filterIncludes funcs ins outs = some res → g ∈ res →
      ¬ (g.Args.length < ins.length ∨ g.Rets.length < outs.length) := by
  intro funcs
  induction funcs with
  | nil =>
      intro ins outs res g h hg
      rw [filterIncludes] at h
      cases h
      exact absurd hg (List.not_mem_nil g)
  | cons f fs ih =>
      intro ins outs res g h hg
      rw [filterIncludes] at h
      by_cases hpre : f.Args.length < ins.length ∨ f.Rets.length < outs.length
      · rw [if_pos hpre] at h
        exact ih ins outs res g h hg
      · rw [if_neg hpre] at h
        rcases hA : contains f.Args ins with _ | bA
        · rw [hA] at h; exact Option.noConfusion h
        · rw [hA] at h
          cases bA with
          | false => exact ih ins outs res g h hg
          | true =>
              rcases hR : contains f.Rets outs with _ | bR
              · rw [hR] at h; exact Option.noConfusion h
              · rw [hR] at h
                cases bR with
                | false => exact ih ins outs res g h hg
                | true =>
                    rcases hfs : filterIncludes fs ins outs with _ | res0
                    · rw [hfs] at h; exact Option.noConfusion h
                    · rw [hfs] at h
                      have hres : f :: res0 = res := by simpa using h
                      rw [← hres] at hg
                      rcases List.mem_cons.mp hg with he | hm
                      · rw [he]; exact hpre
                      · exact ih ins outs res0 g hfs hm

/-- For a record passing the pre-check, membership in a successful
filter's output is equivalent to both of its `contains` checks returning
`some true`. -/
theorem mem_filterIncludes_iff :
    ∀ (funcs : List Func) (ins outs : List String) (res : List Func) (g : Func),
      filterIncludes funcs ins outs = some res → g ∈ funcs →
      ¬ (g.Args.length < ins.length ∨ g.Rets.length < outs.length) →
      (g ∈ res ↔ contains g.Args ins = some true ∧ contains g.Rets outs = some true) := by
  intro funcs
  induction funcs with
  | nil =>
      intro ins outs res g _ hg _
      exact absurd hg (List.not_mem_nil g)
  | cons f fs ih =>
      intro ins outs res g h hg hgpre
      rw [filterIncludes] at h
      by_cases hpre : f.Args.length < ins.length ∨ f.Rets.length < outs.length
      · rw [if_pos hpre] at h
        have hne : g ≠ f := fun he => hgpre (he ▸ hpre)
        have hgf : g ∈ fs := by
          rcases List.mem_cons.mp hg with he | hm
          · exact absurd he hne
          · exact hm
        exact ih ins outs res g h hgf hgpre
      · rw [if_neg hpre] at h
        rcases hA : contains f.Args ins with _ | bA
        · rw [hA] at h; exact Option.noConfusion h
        · rw [hA] at h
          cases bA with
          | false =>
              rcases List.mem_cons.mp hg with he | hm
              · subst he
                constructor
                · intro hgres
                  have hgfs := (filterIncludes_sublist fs ins outs res h).subset hgres
                  have hcond := (ih ins outs res g h hgfs hgpre).mp hgres
                  rw [hA] at hcond
                  exact absurd hcond.1 (by simp)
                · rintro ⟨h1, _⟩
                  rw [hA] at h1
                  exact absurd h1 (by simp)
              · exact ih ins outs res g h hm hgpre
          | true =>
              rcases hR : contains f.Rets outs with _ | bR
              · rw [hR] at h; exact Option.noConfusion h
              · rw [hR] at h
                cases bR with
                | false =>
                    rcases List.mem_cons.mp hg with he | hm
                    · subst he
                      constructor
                      · intro hgres
                        have hgfs := (filterIncludes_sublist fs ins outs res h).subset hgres
                        have hcond := (ih ins outs res g h hgfs hgpre).mp hgres
                        rw [hR] at hcond
                        exact absurd hcond.2 (by simp)
                      · rintro ⟨_, h2⟩
                        rw [hR] at h2
                        exact absurd h2 (by simp)
                    · exact ih ins outs res g h hm hgpre
                | true =>
                    rcases hfs : filterIncludes fs ins outs with _ | res0
                    · rw [hfs] at h; exact Option.noConfusion h
                    · rw [hfs] at h
                      have hres : f :: res0 = res := by simpa using h
                      subst hres
                      rcases List.mem_cons.mp hg with he | hm
                      · subst he
                        exact ⟨fun _ => ⟨hA, hR⟩, fun _ => List.mem_cons_self g res0⟩
                      · constructor
                        · intro hgres
                          rcases List.mem_cons.mp hgres with he2 | hm2
                          · subst he2; exact ⟨hA, hR⟩
                          · exact (ih ins outs res0 g hfs hm hgpre).mp hm2
                        · intro hcond
                          by_cases hgf : g = f
                          · subst hgf; exact List.mem_cons_self g res0
                          · exact List.mem_cons.mpr
                              (Or.inr ((ih ins outs res0 g hfs hm hgpre).mpr hcond))

/-- C5 amended: the parser replaces every parenthesis character with a
space (rather than deleting it), splits on the literal `" -> "`, and fails
with the invalid-query error exactly when the result is not two segments;
on two segments it returns the comma-split, whitespace-trimmed token
lists.  The arrow-free pattern `"(int) (bool)"` is rejected. -/
theorem claim_C5_amended :
    (∀ s : String,
        (splitOnStr " -> " (replaceAll (replaceAll s '(' " ") ')' " ")).length ≠ 2 ↔
          getInputsAndOutput s = Except.error "invalid input") ∧
    (∀ (s : String) (s0 s1 : String),
        splitOnStr " -> " (replaceAll (replaceAll s '(' " ") ')' " ") = [s0, s1] →
        getInputsAndOutput s =
          Except.ok ((splitOnStr "," s0).map trimStr, (splitOnStr "," s1).map trimStr)) ∧
    getInputsAndOutput "(int) (bool)" = Except.error "invalid input" := by
  refine ⟨?_, ?_, rfl⟩
  · intro s
    rcases hsp : splitOnStr " -> " (replaceAll (replaceAll s '(' " ") ')' " ")
      with _ | ⟨s0, _ | ⟨s1, _ | ⟨s2, rest⟩⟩⟩ <;>
      simp [getInputsAndOutput, hsp]
  · intro s s0 s1 hsp
    simp [getInputsAndOutput, hsp]

/-- C5 amended witness: for the concrete arrow-free pattern the
transformed text has one segment, and the parser errors. -/
theorem claim_C5_amended_witness :
    getInputsAndOutput "(int) (bool)" = Except.error "invalid input" :=
  (claim_C5_amended.1 "(int) (bool)").mp (by decide)

/-- C6: for every record passing the cardinality pre-check, a successful
includes-mode filter keeps the record exactly when, on each side, every
requested token — metacharacters escaped — matches at least one actual
token (unanchored, order- and multiplicity-independent); and the concrete
scenario: query `"(Path) -> (Path)"` parses to `(["Path"], ["Path"])` and
keeps the record with `Args = ["Path"]`, `Rets = ["*DrivePath", "error"]`,
since `"Path"` matches `"*DrivePath"` as a substring. -/
theorem claim_C6_includes_iff :
    (∀ (funcs : List Func) (ins outs : List String) (res : List Func) (g : Func),
        filterIncludes funcs ins outs = some res → g ∈ funcs →
        ¬ (g.Args.length < ins.length ∨ g.Rets.length < outs.length) →
        (g ∈ res ↔ sideMatched g.Args ins ∧ sideMatched g.Rets outs)) ∧
    getInputsAndOutput "(Path) -> (Path)" = Except.ok (["Path"], ["Path"]) ∧
    filterIncludes [pathRec] ["Path"] ["Path"] = some [pathRec] := by
  refine ⟨?_, rfl, by decide⟩
  intro funcs ins outs res g h hg hgpre
  rw [← contains_true_iff g.Args ins, ← contains_true_iff g.Rets outs]
  exact mem_filterIncludes_iff funcs ins outs res g h hg hgpre

/-- C6 witness: instantiating the equivalence at the concrete scenario
shows both sides of `pathRec` satisfy the claim-side matching predicate. -/
theorem claim_C6_includes_iff_witness :
    sideMatched pathRec.Args ["Path"] ∧ sideMatched pathRec.Rets ["Path"] :=
  (claim_C6_includes_iff.1 [pathRec] ["Path"] ["Path"] [pathRec] pathRec
    (by decide) (by decide) (by decide)).mp (by decide)

/-- C7: a record with fewer `Args` than the query's input tokens or fewer
`Rets` than its output tokens is skipped with no matching attempted — the
filter of the remaining records is unchanged — and such a record never
appears in a successful filter's output. -/
theorem claim_C7_precheck :
    ∀ (f : Func) (fs : List Func) (ins outs : List String),
      f.Args.length < ins.length ∨ f.Rets.length < outs.length →
      filterIncludes (f :: fs) ins outs = filterIncludes fs ins outs ∧
      ∀ res, filterIncludes (f :: fs) ins outs = some res → f ∉ res := by
  intro f fs ins outs h
  constructor
  · rw [filterIncludes, if_pos h]
  · intro res hres hmem
    exact mem_filterIncludes_precheck (f :: fs) ins outs res f hres hmem h

/-- C7 witness: a record with no `Args` is skipped by a query with one
input token, whatever the token contents. -/
theorem claim_C7_precheck_witness :
    filterIncludes [⟨"b.go", [0, 0], "B", [], []⟩] ["x"] [] =
      filterIncludes [] ["x"] [] ∧
    (⟨"b.go", [0, 0], "B", [], []⟩ : Func) ∉ ([] : List Func) :=
  ⟨(claim_C7_precheck ⟨"b.go", [0, 0], "B", [], []⟩ [] ["x"] [] (by decide)).1,
   fun hm => (claim_C7_precheck ⟨"b.go", [0, 0], "B", [], []⟩ [] ["x"] [] (by decide)).2
     [] (by decide) hm⟩

/-- C9: the pattern `"() -> (bool)"` parses to a one-token input side
containing the empty string; in includes mode the empty token matches
every actual token, so a side passes exactly when the record has at least
one element there — a record with no `Args` is excluded by the
cardinality pre-check, so an empty query side is not "no constraint". -/
theorem claim_C9_empty_token :
    getInputsAndOutput "() -> (bool)" = Except.ok ([""], ["bool"]) ∧
    (∀ args : List String, contains args [""] = some (decide (args ≠ []))) ∧
    (∀ f : Func, f.Args = [] → filterIncludes [f] [""] ["bool"] = some []) := by
  refine ⟨rfl, ?_, ?_⟩
  · intro args
    cases args with
    | nil => rfl
    | cons x xs =>
        have hall : ∀ s : String, rMatchString [[]] s = true := by
          intro s
          rw [rMatchString]
          apply List.any_eq_true.mpr
          refine ⟨0, by simp, ?_⟩
          apply List.any_eq_true.mpr
          exact ⟨[], by simp, by simp [seqMatch]⟩
        rw [contains_cons]
        have hcomp : reCompile (escapeTest "") = some [[]] := rfl
        simp only [hcomp, hall, List.any_cons, Bool.true_or, if_true]
        rfl
  · intro f hf
    rw [filterIncludes, if_pos (by rw [hf]; simp)]
    rfl

/-- C9 witness: instantiating at a concrete record with no `Args` and at a
concrete nonempty token list. -/
theorem claim_C9_empty_token_witness :
    filterIncludes [⟨"z.go", [0, 0], "Z", [], ["bool"]⟩] [""] ["bool"] = some [] ∧
    contains ["int"] [""] = some true :=
  ⟨claim_C9_empty_token.2.2 ⟨"z.go", [0, 0], "Z", [], ["bool"]⟩ rfl,
   claim_C9_empty_token.2.1 ["int"]⟩

/-- C10: a successful includes-mode filter returns a subsequence of its
input: kept records stay in input order, none is duplicated, and none is
invented. -/
theorem claim_C10_filter_subsequence :
    ∀ (funcs : List Func) (ins outs : List String) (res : List Func),
      filterIncludes funcs ins outs = some res → res.Sublist funcs := by
  intro funcs ins outs res h
  exact filterIncludes_sublist funcs ins outs res h

/-- C10 witness: on a two-record input where the second record fails the
pre-check, the output is the subsequence keeping only the first. -/
theorem claim_C10_filter_subsequence_witness :
    [pathRec].Sublist [pathRec, ⟨"d.go", [0, 0], "D", [], []⟩] :=
  claim_C10_filter_subsequence [pathRec, ⟨"d.go", [0, 0], "D", [], []⟩]
    ["Path"] ["Path"] [pathRec] (by decide)
